import Mathlib

/-!
Shallow embedding of the initiative `Tracker` class from `src/index.js`.

The tracker state is a lowdb document `{round, turn, characters}`; each
character is `{userID, name, initiative, dexterity}`.  All mutators are
synchronous straight-line code over this document, so they are embedded as
pure functions `TrackerState → TrackerState` (or `Except String TrackerState`
for the mutators that can `throw`).  JS numbers for `round`/`turn` are
modelled as `Int` (the code subtracts, so `Nat` would not be faithful);
`initiative`/`dexterity` are modelled as `Int` as well.
-/

/-- A character record, mirroring the object pushed by `addCharacter`:
`{ userID, name, initiative, dexterity }`. -/
structure Character where
  userID : String
  name : String
  initiative : Int
  dexterity : Int
deriving DecidableEq, Repr

/-- The persisted tracker document: `{ round, turn, characters }`. -/
structure TrackerState where
  round : Int
  turn : Int
  characters : List Character
deriving DecidableEq, Repr

/-- The lowdb defaults written by the constructor: `{round: 0, turn: 0, characters: []}`. -/
def defaultState : TrackerState := ⟨0, 0, []⟩

/-- `characterCount`: `db.get("characters").size()`. -/
def characterCount (s : TrackerState) : Nat := s.characters.length

/-- `characterExists(name)`: `!!db.get("characters").find({name}).value()` —
the lodash `find` with a `{name}` matches-shorthand returns the first
character whose `name` field equals `name`; an object is always truthy. -/
def characterExists (name : String) (s : TrackerState) : Bool :=
  (s.characters.find? (fun c => c.name == name)).isSome

/-- Index of the first character with the given name, if any (the index
lodash `findIndex({name})` returns when it does not return `-1`). -/
def findIdxName (name : String) : List Character → Option Nat
  | [] => none
  | c :: cs => if c.name == name then some 0 else (findIdxName name cs).map (· + 1)

/-- `getCharacterIndex(name)` result as the JS number lodash `findIndex`
produces: the first matching index, or `-1` when the name is absent
(the method itself throws first in that case). -/
def findIndexName (name : String) (cs : List Character) : Int :=
  match findIdxName name cs with
  | some i => (i : Int)
  | none => -1

/-- `addCharacter(userID, name, initiative, dexterity)`: throws
`"Character already exists!"` on a duplicate name, otherwise pushes the new
character onto the end of `characters`. -/
def addCharacter (userID name : String) (initiative dexterity : Int)
    (s : TrackerState) : Except String TrackerState :=
  if characterExists name s then .error "Character already exists!"
  else .ok { s with characters := s.characters ++ [⟨userID, name, initiative, dexterity⟩] }

/-- The effect of `find({name}).assign({name: newname, initiative, dexterity})`:
lodash `find` locates the first character with the old name and `assign`
overwrites its fields in place, leaving every other element untouched. -/
def editFirst (name newname : String) (initiative dexterity : Int) :
    List Character → List Character
  | [] => []
  | c :: cs =>
    if c.name == name then
      { c with name := newname, initiative := initiative, dexterity := dexterity } :: cs
    else c :: editFirst name newname initiative dexterity cs

/-- `editCharacter(name, newname, initiative, dexterity)`: throws
`"Character does not exist!"` when the old name is absent; performs no
check at all on `newname`. -/
def editCharacter (name newname : String) (initiative dexterity : Int)
    (s : TrackerState) : Except String TrackerState :=
  if !characterExists name s then .error "Character does not exist!"
  else .ok { s with characters := editFirst name newname initiative dexterity s.characters }

/-- The effect of `db.get('characters').remove({name}).write()`: lodash
`remove` deletes every element matching the `{name}` shorthand. -/
def removeAllName (name : String) (cs : List Character) : List Character :=
  cs.filter (fun c => !(c.name == name))

/-- `removeCharacter(name)`: throws when the name is absent; otherwise
branches on the first matching index against `turn`, exactly as the source:
if `foundIndex < turn` remove and decrement `turn`; if `foundIndex === turn`
and it is the last index, increment `round` and zero `turn` before removing,
else just remove; if `foundIndex > turn` just remove. -/
def removeCharacter (name : String) (s : TrackerState) : Except String TrackerState :=
  if !characterExists name s then .error "Character does not exist!"
  else
    let foundIndex := findIndexName name s.characters
    if foundIndex < s.turn then
      .ok { s with characters := removeAllName name s.characters, turn := s.turn - 1 }
    else if foundIndex == s.turn then
      if foundIndex == (s.characters.length : Int) - 1 then
        .ok { round := s.round + 1, turn := 0, characters := removeAllName name s.characters }
      else
        .ok { s with characters := removeAllName name s.characters }
    else
      .ok { s with characters := removeAllName name s.characters }

/-!
`sortTracker()` executes

  db.get("characters").orderBy(db.get("characters").value(),
                               ['initiative','dexterity'], ['desc','desc'])

In the lodash chain the wrapped characters array is the `collection`
argument, so the explicit arguments shift: the characters array itself
becomes `iteratees`, `['initiative','dexterity']` becomes `orders`, and
`['desc','desc']` lands in the internal `guard` parameter.  A truthy
`guard` makes lodash discard `orders` (so every key is compared
ascending), and each object iteratee becomes a `_.matches` predicate.
Hence every element is keyed by the boolean vector
"does it structurally match the j-th pre-sort element", the vectors are
compared lexicographically ascending (`false` before `true`) and ties fall
back to the original index (lodash `baseSortBy` is stable).  The embedding
below reproduces exactly that computation.
-/

/-- The lodash sort key of element `e`: for each pre-sort element `c`, the
result of the `_.matches c` predicate on `e` (structural equality, since
both carry exactly the fields `userID, name, initiative, dexterity`). -/
def criteria (cs : List Character) (e : Character) : List Bool :=
  cs.map (fun c => e == c)

/-- Lexicographic strict comparison of two equal-length boolean criteria
vectors, `false` ordered before `true` (lodash `compareAscending` on
booleans, with the empty `orders` array leaving every position ascending). -/
def critLt : List Bool → List Bool → Bool
  | a :: as, b :: bs => if a == b then critLt as bs else !a
  | _, _ => false

/-- The total order lodash `compareMultiple` induces on the indexed records:
criteria vectors first, original index as the final tie-break. -/
def recLt (cs : List Character) (a b : Nat × Character) : Bool :=
  if critLt (criteria cs a.2) (criteria cs b.2) then true
  else if critLt (criteria cs b.2) (criteria cs a.2) then false
  else decide (a.1 < b.1)

/-- Pair each element with its original index (lodash tags records with
`index` before sorting). -/
def enumFromIdx (i : Nat) : List Character → List (Nat × Character)
  | [] => []
  | c :: cs => (i, c) :: enumFromIdx (i + 1) cs

/-- Insert into a list sorted by the strict order `lt`, before the first
strictly greater element. -/
def insertRec {α : Type} (lt : α → α → Bool) (x : α) : List α → List α
  | [] => [x]
  | y :: ys => if lt x y then x :: y :: ys else y :: insertRec lt x ys

/-- Sort by the strict order `lt`.  `recLt` is a strict total order (the
index tie-break separates all records), so any comparison sort — including
lodash's — produces this unique sorted arrangement. -/
def sortRecs {α : Type} (lt : α → α → Bool) : List α → List α
  | [] => []
  | x :: xs => insertRec lt x (sortRecs lt xs)

/-- What the `orderBy` call in `sortTracker()` actually computes on the
characters array. -/
def sortCharacters (cs : List Character) : List Character :=
  (sortRecs (recLt cs) (enumFromIdx 0 cs)).map Prod.snd

/-- `sortTracker()`: overwrites `characters` with the `orderBy` result;
`round` and `turn` are untouched. -/
def sortTracker (s : TrackerState) : TrackerState :=
  { s with characters := sortCharacters s.characters }

/-- `nextTurn()`: if `turn < characterCount - 1` increment `turn`,
otherwise zero `turn`, increment `round` and call `sortTracker()`. -/
def nextTurn (s : TrackerState) : TrackerState :=
  if s.turn < (s.characters.length : Int) - 1 then { s with turn := s.turn + 1 }
  else sortTracker { s with turn := 0, round := s.round + 1 }

/-- `startCombat()`: `round := 1`, `turn := 0`. -/
def startCombat (s : TrackerState) : TrackerState :=
  { s with round := 1, turn := 0 }

/-- `reset(wipe = true)`: clear `characters` when `wipe`, always zero
`round` and `turn`. -/
def reset (wipe : Bool) (s : TrackerState) : TrackerState :=
  { round := 0, turn := 0, characters := if wipe then [] else s.characters }

/-- One call of the tracker's mutating API surface (the `setTurn`/`setRound`
escape hatches excluded). -/
inductive Op
  | add (userID name : String) (initiative dexterity : Int)
  | edit (name newname : String) (initiative dexterity : Int)
  | remove (name : String)
  | next
  | start
  | sort
  | wipe (w : Bool)
deriving DecidableEq, Repr

/-- Run one call; the throwing mutators surface their JS error string. -/
def runOp : Op → TrackerState → Except String TrackerState
  | .add userID name initiative dexterity, s => addCharacter userID name initiative dexterity s
  | .edit name newname initiative dexterity, s => editCharacter name newname initiative dexterity s
  | .remove name, s => removeCharacter name s
  | .next, s => .ok (nextTurn s)
  | .start, s => .ok (startCombat s)
  | .sort, s => .ok (sortTracker s)
  | .wipe w, s => .ok (reset w s)

/-- The state after a call: a throwing call leaves the document as it was
(each mutator validates before its first `write`). -/
def applyOp (op : Op) (s : TrackerState) : TrackerState :=
  match runOp op s with
  | .ok s' => s'
  | .error _ => s

/-- The state after a whole sequence of calls. -/
def applySeq (ops : List Op) (s : TrackerState) : TrackerState :=
  ops.foldl (fun t op => applyOp op t) s

/-- Edits whose new name collides with a different existing character are
the one API call that can break name uniqueness; the amended reachability
relation rules exactly those calls out. -/
def OkOp (op : Op) (s : TrackerState) : Prop :=
  match op with
  | .edit name newname _ _ => newname = name ∨ characterExists newname s = false
  | _ => True

/-- States reachable from the defaults by API calls whose edits never
rename a character onto a different existing character's name. -/
inductive ReachableNoClash : TrackerState → Prop
  | init : ReachableNoClash defaultState
  | step {s : TrackerState} (op : Op) : ReachableNoClash s → OkOp op s →
      ReachableNoClash (applyOp op s)

/-- The descending `(initiative, dexterity)` order between adjacent
characters that the spec asks of a sorted roster. -/
def specGe (a b : Character) : Bool :=
  if a.initiative == b.initiative then decide (b.dexterity ≤ a.dexterity)
  else decide (b.initiative < a.initiative)

/-- The spec's turn-order predicate: each adjacent pair is ordered by
initiative descending with dexterity descending as the tie-break. -/
def sortedByInitDex : List Character → Bool
  | a :: b :: rest => specGe a b && sortedByInitDex (b :: rest)
  | _ => true

/-- The tracker's internal consistency invariant: character names are
unique, the turn pointer is in range while the roster is non-empty, and it
rests at `0` while the roster is empty. -/
def TrackerInv (s : TrackerState) : Prop :=
  (s.characters.map Character.name).Nodup ∧ 0 ≤ s.turn ∧
    (s.characters.length = 0 → s.turn = 0) ∧
    (0 < s.characters.length → s.turn < (s.characters.length : Int))

theorem find?_isSome_iff_findIdxName {name : String} {cs : List Character} :
    (cs.find? (fun c => c.name == name)).isSome ↔ ∃ i, findIdxName name cs = some i := by
  induction cs with
  | nil => simp [findIdxName]
  | cons c cs ih =>
    by_cases h : c.name == name
    · simp [findIdxName, List.find?, h]
    · simp only [List.find?, h, findIdxName]
      simp only [Bool.false_eq_true, if_false, ih, Option.map_eq_some']
      constructor
      · rintro ⟨i, hi⟩; exact ⟨i + 1, i, hi, rfl⟩
      · rintro ⟨i, j, hj, rfl⟩; exact ⟨j, hj⟩

theorem characterExists_iff {name : String} {s : TrackerState} :
    characterExists name s = true ↔ ∃ i, findIdxName name s.characters = some i := by
  simpa [characterExists] using
    (@find?_isSome_iff_findIdxName name s.characters)

theorem characterExists_false_iff {name : String} {s : TrackerState} :
    characterExists name s = false ↔ ∀ c ∈ s.characters, c.name ≠ name := by
  have h : characterExists name s = false ↔
      s.characters.find? (fun c => c.name == name) = none := by
    unfold characterExists
    cases s.characters.find? (fun c => c.name == name) <;> simp
  rw [h, List.find?_eq_none]
  simp

theorem findIdxName_lt_length {name : String} {cs : List Character} {i : Nat}
    (h : findIdxName name cs = some i) : i < cs.length := by
  induction cs generalizing i with
  | nil => simp [findIdxName] at h
  | cons c cs ih =>
    by_cases hc : c.name == name
    · simp [findIdxName, hc] at h
      simp only [List.length_cons]
      omega
    · simp only [findIdxName, hc, Bool.false_eq_true, if_false, Option.map_eq_some'] at h
      obtain ⟨j, hj, rfl⟩ := h
      have := ih hj
      simp only [List.length_cons]
      omega

theorem findIdxName_get {name : String} {cs : List Character} {i : Nat}
    (h : findIdxName name cs = some i) :
    ∃ c, cs[i]? = some c ∧ c.name = name := by
  induction cs generalizing i with
  | nil => simp [findIdxName] at h
  | cons c cs ih =>
    by_cases hc : c.name == name
    · simp only [findIdxName, hc, if_true, Option.some.injEq] at h
      subst h
      exact ⟨c, by simp, by simpa using hc⟩
    · simp only [findIdxName, hc, Bool.false_eq_true, if_false, Option.map_eq_some'] at h
      obtain ⟨j, hj, rfl⟩ := h
      simpa using ih hj

theorem removeAll_eq_eraseIdx {name : String} {cs : List Character} {i : Nat}
    (hnodup : (cs.map Character.name).Nodup) (h : findIdxName name cs = some i) :
    removeAllName name cs = cs.eraseIdx i := by
  induction cs generalizing i with
  | nil => simp [findIdxName] at h
  | cons c cs ih =>
    simp only [List.map_cons, List.nodup_cons] at hnodup
    by_cases hc : c.name == name
    · simp only [findIdxName, hc, if_true, Option.some.injEq] at h
      subst h
      have hname : c.name = name := by simpa using hc
      have hrest : ∀ x ∈ cs, ¬(x.name == name) = true := by
        intro x hx
        simp only [beq_iff_eq]
        intro hxn
        exact hnodup.1 (by
          subst hname
          rw [← hxn]
          exact List.mem_map_of_mem Character.name hx)
      simp only [removeAllName, List.filter_cons, hc, Bool.not_true, Bool.false_eq_true,
        if_false, List.eraseIdx_cons_zero]
      exact List.filter_eq_self.mpr (by intro a ha; simpa using hrest a ha)
    · simp only [findIdxName, hc, Bool.false_eq_true, if_false, Option.map_eq_some'] at h
      obtain ⟨j, hj, rfl⟩ := h
      simp only [removeAllName, List.filter_cons, hc, Bool.not_false, if_true,
        List.eraseIdx_cons_succ, List.cons.injEq, true_and]
      exact ih hnodup.2 hj

theorem editFirst_eq_set {name newname : String} {initiative dexterity : Int}
    {cs : List Character} {i : Nat} {c : Character}
    (h : findIdxName name cs = some i) (hg : cs[i]? = some c) :
    editFirst name newname initiative dexterity cs =
      cs.set i { c with name := newname, initiative := initiative, dexterity := dexterity } := by
  induction cs generalizing i with
  | nil => simp [findIdxName] at h
  | cons d cs ih =>
    by_cases hd : d.name == name
    · simp only [findIdxName, hd, if_true, Option.some.injEq] at h
      subst h
      simp only [List.getElem?_cons_zero, Option.some.injEq] at hg
      subst hg
      simp [editFirst, hd]
    · simp only [findIdxName, hd, Bool.false_eq_true, if_false, Option.map_eq_some'] at h
      obtain ⟨j, hj, rfl⟩ := h
      simp only [List.getElem?_cons_succ] at hg
      simp [editFirst, hd, List.set_cons_succ, ih hj hg]

theorem editFirst_length (name newname : String) (initiative dexterity : Int)
    (cs : List Character) :
    (editFirst name newname initiative dexterity cs).length = cs.length := by
  induction cs with
  | nil => rfl
  | cons c cs ih =>
    by_cases hc : c.name == name <;> simp [editFirst, hc, ih]

theorem editFirst_name_mem {name newname : String} {initiative dexterity : Int}
    {cs : List Character} {x : String}
    (h : x ∈ (editFirst name newname initiative dexterity cs).map Character.name) :
    x ∈ cs.map Character.name ∨ x = newname := by
  induction cs with
  | nil => simp [editFirst] at h
  | cons c cs ih =>
    by_cases hc : c.name == name
    · simp only [editFirst, hc, if_true, List.map_cons, List.mem_cons] at h
      rcases h with h | h
      · exact Or.inr h
      · exact Or.inl (by simp [List.mem_cons]; right; simpa using h)
    · simp only [editFirst, hc, Bool.false_eq_true, if_false, List.map_cons,
        List.mem_cons] at h
      rcases h with h | h
      · exact Or.inl (by simp [h])
      · rcases ih h with h' | h'
        · exact Or.inl (List.mem_cons_of_mem _ h')
        · exact Or.inr h'

theorem editFirst_names_nodup {name newname : String} {initiative dexterity : Int}
    {cs : List Character}
    (hnodup : (cs.map Character.name).Nodup)
    (hok : newname = name ∨ ∀ c ∈ cs, c.name ≠ newname) :
    ((editFirst name newname initiative dexterity cs).map Character.name).Nodup := by
  induction cs with
  | nil => simp [editFirst]
  | cons c cs ih =>
    simp only [List.map_cons, List.nodup_cons] at hnodup
    by_cases hc : c.name == name
    · have hcname : c.name = name := by simpa using hc
      simp only [editFirst, hc, if_true, List.map_cons, List.nodup_cons]
      refine ⟨?_, hnodup.2⟩
      rcases hok with rfl | hfresh
      · rw [← hcname]; exact hnodup.1
      · intro hmem
        obtain ⟨d, hd, hdn⟩ := List.mem_map.mp hmem
        exact hfresh d (List.mem_cons_of_mem c hd) hdn
    · simp only [editFirst, hc, Bool.false_eq_true, if_false, List.map_cons, List.nodup_cons]
      have hok' : newname = name ∨ ∀ d ∈ cs, d.name ≠ newname := by
        rcases hok with h | h
        · exact Or.inl h
        · exact Or.inr fun d hd => h d (List.mem_cons_of_mem c hd)
      refine ⟨?_, ih hnodup.2 hok'⟩
      intro hmem
      rcases editFirst_name_mem hmem with h | h
      · exact hnodup.1 h
      · rcases hok with rfl | hfresh
        · exact absurd (by simpa using h) (by simpa using hc)
        · exact hfresh c (List.mem_cons_self c cs) h

theorem removeAllName_sublist (name : String) (cs : List Character) :
    (removeAllName name cs).Sublist cs :=
  List.filter_sublist cs

theorem insertRec_perm {α : Type} (lt : α → α → Bool) (x : α) (l : List α) :
    List.Perm (insertRec lt x l) (x :: l) := by
  induction l with
  | nil => simp [insertRec]
  | cons y ys ih =>
    by_cases h : lt x y
    · simp [insertRec, h]
    · simp only [insertRec, h, Bool.false_eq_true, if_false]
      exact ((ih.cons y).trans (List.Perm.swap x y ys))

theorem sortRecs_perm {α : Type} (lt : α → α → Bool) (l : List α) :
    List.Perm (sortRecs lt l) l := by
  induction l with
  | nil => simp [sortRecs]
  | cons x xs ih => exact (insertRec_perm lt x (sortRecs lt xs)).trans (ih.cons x)

theorem enumFromIdx_map_snd (i : Nat) (cs : List Character) :
    (enumFromIdx i cs).map Prod.snd = cs := by
  induction cs generalizing i with
  | nil => rfl
  | cons c cs ih => simp [enumFromIdx, ih]

theorem sortCharacters_perm (cs : List Character) :
    List.Perm (sortCharacters cs) cs := by
  have h := List.Perm.map Prod.snd (sortRecs_perm (recLt cs) (enumFromIdx 0 cs))
  rw [enumFromIdx_map_snd] at h
  exact h

theorem sortCharacters_length (cs : List Character) :
    (sortCharacters cs).length = cs.length :=
  (sortCharacters_perm cs).length_eq

theorem sortCharacters_names_nodup {cs : List Character}
    (h : (cs.map Character.name).Nodup) :
    ((sortCharacters cs).map Character.name).Nodup :=
  (List.Perm.map Character.name (sortCharacters_perm cs)).symm.nodup h

theorem trackerInv_mk {r t : Int} {cs : List Character}
    (h1 : (cs.map Character.name).Nodup) (h2 : 0 ≤ t) (h3 : cs.length = 0 → t = 0)
    (h4 : 0 < cs.length → t < (cs.length : Int)) : TrackerInv ⟨r, t, cs⟩ :=
  ⟨h1, h2, h3, h4⟩

theorem inv_addCharacter {s s' : TrackerState} {userID name : String}
    {initiative dexterity : Int} (hInv : TrackerInv s)
    (h : addCharacter userID name initiative dexterity s = .ok s') : TrackerInv s' := by
  obtain ⟨hnodup, hturn0, hempty, hbound⟩ := hInv
  unfold addCharacter at h
  by_cases hex : characterExists name s = true
  · simp [hex] at h
  · have hfresh := characterExists_false_iff.mp (by simpa using hex)
    simp only [hex, Bool.false_eq_true, if_false, Except.ok.injEq] at h
    subst h
    refine ⟨?_, hturn0, ?_, ?_⟩
    · simp only [List.map_append, List.map_cons, List.map_nil, List.nodup_append]
      refine ⟨hnodup, List.nodup_singleton _, ?_⟩
      intro x hx hx1
      obtain ⟨c, hc, rfl⟩ := List.mem_map.mp hx
      simp only [List.mem_singleton] at hx1
      exact hfresh c hc hx1
    · simp only [List.length_append, List.length_cons, List.length_nil]
      omega
    · simp only [List.length_append, List.length_cons, List.length_nil]
      intro _
      by_cases hn : s.characters.length = 0
      · have := hempty hn
        push_cast
        omega
      · have := hbound (by omega)
        push_cast
        omega

theorem inv_editCharacter {s s' : TrackerState} {name newname : String}
    {initiative dexterity : Int} (hInv : TrackerInv s)
    (hok : newname = name ∨ characterExists newname s = false)
    (h : editCharacter name newname initiative dexterity s = .ok s') : TrackerInv s' := by
  obtain ⟨hnodup, hturn0, hempty, hbound⟩ := hInv
  unfold editCharacter at h
  by_cases hex : characterExists name s = true
  · simp only [hex, Bool.not_true, Bool.false_eq_true, if_false, Except.ok.injEq] at h
    subst h
    have hok' : newname = name ∨ ∀ c ∈ s.characters, c.name ≠ newname := by
      rcases hok with h' | h'
      · exact Or.inl h'
      · exact Or.inr (characterExists_false_iff.mp h')
    refine ⟨editFirst_names_nodup hnodup hok', hturn0, ?_, ?_⟩ <;>
      rw [editFirst_length] <;> assumption
  · simp only [hex] at h
    simp at h

theorem inv_removeCharacter {s s' : TrackerState} {name : String}
    (hInv : TrackerInv s) (h : removeCharacter name s = .ok s') : TrackerInv s' := by
  obtain ⟨hnodup, hturn0, hempty, hbound⟩ := hInv
  unfold removeCharacter at h
  by_cases hex : characterExists name s = true
  · obtain ⟨i, hi⟩ := characterExists_iff.mp hex
    have hilen : i < s.characters.length := findIdxName_lt_length hi
    have herase : removeAllName name s.characters = s.characters.eraseIdx i :=
      removeAll_eq_eraseIdx hnodup hi
    have hlen' : (s.characters.eraseIdx i).length = s.characters.length - 1 :=
      List.length_eraseIdx_of_lt hilen
    have hnodup' : ((s.characters.eraseIdx i).map Character.name).Nodup :=
      ((List.eraseIdx_sublist s.characters i).map Character.name).nodup hnodup
    simp only [hex, Bool.not_true, Bool.false_eq_true, if_false, findIndexName, hi,
      beq_iff_eq] at h
    split_ifs at h with hlt heq hlast <;>
      simp only [Except.ok.injEq] at h <;> subst h <;>
      refine trackerInv_mk (by rw [herase]; exact hnodup') ?_ ?_ ?_ <;>
      try simp only [herase, hlen']
    · omega
    · intro hg
      have := hbound (by omega)
      omega
    · intro hg
      have := hbound (by omega)
      omega
    · omega
    · intro hg
      trivial
    · intro hg
      omega
    · exact hturn0
    · intro hg
      have := hbound (by omega)
      omega
    · intro hg
      have := hbound (by omega)
      omega
    · exact hturn0
    · intro hg
      omega
    · intro hg
      omega
  · simp only [hex] at h
    simp at h

theorem inv_sortTracker {s : TrackerState} (hInv : TrackerInv s) :
    TrackerInv (sortTracker s) := by
  obtain ⟨hnodup, hturn0, hempty, hbound⟩ := hInv
  unfold sortTracker
  refine trackerInv_mk (sortCharacters_names_nodup hnodup) hturn0 ?_ ?_ <;>
    rw [sortCharacters_length]
  · exact hempty
  · exact hbound

theorem inv_nextTurn {s : TrackerState} (hInv : TrackerInv s) : TrackerInv (nextTurn s) := by
  obtain ⟨hnodup, hturn0, hempty, hbound⟩ := hInv
  unfold nextTurn
  split
  case isTrue hlt =>
    refine trackerInv_mk hnodup ?_ ?_ ?_
    · omega
    · intro hl
      omega
    · intro hl
      omega
  case isFalse hge =>
    apply inv_sortTracker
    refine trackerInv_mk hnodup (le_refl 0) (fun _ => rfl) ?_
    intro hl
    omega

theorem inv_startCombat {s : TrackerState} (hInv : TrackerInv s) :
    TrackerInv (startCombat s) := by
  obtain ⟨hnodup, -, -, -⟩ := hInv
  refine trackerInv_mk hnodup (le_refl 0) (fun _ => rfl) ?_
  intro hl
  omega

theorem inv_reset {s : TrackerState} (w : Bool) (hInv : TrackerInv s) :
    TrackerInv (reset w s) := by
  obtain ⟨hnodup, -, -, -⟩ := hInv
  cases w with
  | true =>
    refine trackerInv_mk ?_ (le_refl 0) (fun _ => rfl) ?_ <;> simp [reset]
  | false =>
    refine trackerInv_mk ?_ (le_refl 0) (fun _ => rfl) ?_
    · simpa [reset] using hnodup
    · intro hl
      omega

theorem inv_applyOp {s : TrackerState} (op : Op) (hInv : TrackerInv s)
    (hok : OkOp op s) : TrackerInv (applyOp op s) := by
  cases op with
  | add userID name initiative dexterity =>
    simp only [applyOp, runOp]
    cases h : addCharacter userID name initiative dexterity s with
    | ok s' => exact inv_addCharacter hInv h
    | error e => exact hInv
  | edit name newname initiative dexterity =>
    simp only [applyOp, runOp]
    cases h : editCharacter name newname initiative dexterity s with
    | ok s' => exact inv_editCharacter hInv hok h
    | error e => exact hInv
  | remove name =>
    simp only [applyOp, runOp]
    cases h : removeCharacter name s with
    | ok s' => exact inv_removeCharacter hInv h
    | error e => exact hInv
  | next => exact inv_nextTurn hInv
  | start => exact inv_startCombat hInv
  | sort => exact inv_sortTracker hInv
  | wipe w => exact inv_reset w hInv

theorem inv_reachable {s : TrackerState} (h : ReachableNoClash s) : TrackerInv s := by
  induction h with
  | init =>
    exact ⟨List.nodup_nil, le_refl 0, fun _ => rfl, by simp [defaultState]⟩
  | step op hs hok ih => exact inv_applyOp op ih hok

/-- C1: the spec claims that after `sortTracker()` the roster is ordered by
initiative descending with dexterity descending as tie-break, with `round`
and `turn` unchanged.  `round`/`turn` are indeed unchanged, but the
mis-parameterised lodash `orderBy` call reverses the roster instead of
sorting it: on the already-correctly-ordered roster
`[A (init 5, dex 5), B (init 1, dex 1)]` the call yields `[B, A]`, which is
not in descending initiative order. -/
theorem sortTracker_failing_input :
    sortTracker ⟨0, 0, [⟨"u", "A", 5, 5⟩, ⟨"u", "B", 1, 1⟩]⟩ =
      ⟨0, 0, [⟨"u", "B", 1, 1⟩, ⟨"u", "A", 5, 5⟩]⟩ ∧
    sortedByInitDex [⟨"u", "A", 5, 5⟩, ⟨"u", "B", 1, 1⟩] = true ∧
    sortedByInitDex [⟨"u", "B", 1, 1⟩, ⟨"u", "A", 5, 5⟩] = false := by
  refine ⟨?_, rfl, rfl⟩
  rfl

/-- C3: `nextTurn()` does increment `turn` below the last index (first
conjunct), and on the last index it does wrap `turn` to `0` and increment
`round` — but the claimed re-sort by `(initiative desc, dexterity desc)`
does not happen: the roster `[A (init 5), B (init 1)]` comes out reversed
as `[B, A]`, which is not in descending initiative order. -/
theorem nextTurn_wrap_failing_input :
    nextTurn ⟨0, 0, [⟨"u", "A", 5, 5⟩, ⟨"u", "B", 1, 1⟩]⟩ =
      ⟨0, 1, [⟨"u", "A", 5, 5⟩, ⟨"u", "B", 1, 1⟩]⟩ ∧
    nextTurn ⟨0, 1, [⟨"u", "A", 5, 5⟩, ⟨"u", "B", 1, 1⟩]⟩ =
      ⟨1, 0, [⟨"u", "B", 1, 1⟩, ⟨"u", "A", 5, 5⟩]⟩ ∧
    sortedByInitDex [⟨"u", "B", 1, 1⟩, ⟨"u", "A", 5, 5⟩] = false := by
  refine ⟨?_, ?_, rfl⟩ <;> rfl

/-- C8: the spec claims `sortTracker()` is idempotent and stable.  Both
fail on the code: on roster `[A, B]` with equal `(initiative, dexterity)`
pairs the call swaps the two (violating stability), and applying it twice
restores the original order, which differs from applying it once
(violating idempotence). -/
theorem sortTracker_not_idempotent_failing_input :
    sortTracker ⟨0, 0, [⟨"u", "A", 3, 3⟩, ⟨"u", "B", 3, 3⟩]⟩ =
      ⟨0, 0, [⟨"u", "B", 3, 3⟩, ⟨"u", "A", 3, 3⟩]⟩ ∧
    sortTracker (sortTracker ⟨0, 0, [⟨"u", "A", 3, 3⟩, ⟨"u", "B", 3, 3⟩]⟩) =
      ⟨0, 0, [⟨"u", "A", 3, 3⟩, ⟨"u", "B", 3, 3⟩]⟩ ∧
    decide (sortTracker (sortTracker ⟨0, 0, [⟨"u", "A", 3, 3⟩, ⟨"u", "B", 3, 3⟩]⟩) =
      sortTracker ⟨0, 0, [⟨"u", "A", 3, 3⟩, ⟨"u", "B", 3, 3⟩]⟩) = false := by
  refine ⟨?_, ?_, ?_⟩ <;> rfl

/-- C9: `reset(true)` empties the roster and zeroes `round` and `turn`;
`reset(false)` keeps the roster exactly as it was and zeroes `round` and
`turn`. -/
theorem reset_spec (s : TrackerState) :
    reset true s = ⟨0, 0, []⟩ ∧
    reset false s = ⟨0, 0, s.characters⟩ ∧
    characterCount (reset true s) = 0 :=
  ⟨rfl, rfl, rfl⟩

/-- C10: `nextTurn()` on an empty roster throws nothing: the guard
`turn < characterCount - 1` compares against `-1` and fails, so the call
zeroes `turn`, increments `round`, and leaves the (empty) roster empty. -/
theorem nextTurn_empty_roster (s : TrackerState) (h : s.characters = [])
    (h0 : 0 ≤ s.turn) :
    nextTurn s = { round := s.round + 1, turn := 0, characters := [] } := by
  unfold nextTurn
  rw [h]
  rw [if_neg (by simp; omega)]
  unfold sortTracker
  rfl

theorem nextTurn_empty_roster_witness :
    defaultState.characters = [] ∧ 0 ≤ defaultState.turn ∧
    nextTurn defaultState =
      { round := defaultState.round + 1, turn := 0, characters := [] } :=
  ⟨rfl, by decide, nextTurn_empty_roster defaultState rfl (by decide)⟩

/-- C5: `addCharacter` fails with the duplicate error exactly when a
character of that name already exists; on success it appends the new
character at the end of the roster (so existing characters keep their
relative order and `turn`/`round` are untouched), after which
`characterExists` holds for the name. -/
theorem addCharacter_spec (s : TrackerState) (userID name : String)
    (initiative dexterity : Int) :
    (addCharacter userID name initiative dexterity s =
        .error "Character already exists!" ↔ characterExists name s = true) ∧
    (characterExists name s = false →
      addCharacter userID name initiative dexterity s =
        .ok { s with characters :=
          s.characters ++ [⟨userID, name, initiative, dexterity⟩] } ∧
      characterExists name { s with characters :=
        s.characters ++ [⟨userID, name, initiative, dexterity⟩] } = true) := by
  constructor
  · constructor
    · intro h
      cases hex : characterExists name s with
      | true => rfl
      | false => simp [addCharacter, hex] at h
    · intro hex
      simp [addCharacter, hex]
  · intro hex
    refine ⟨by simp [addCharacter, hex], ?_⟩
    simp only [characterExists, List.find?_append]
    cases hfb : s.characters.find? (fun c => c.name == name) with
    | some c => simp
    | none => simp [List.find?]

theorem addCharacter_spec_witness :
    characterExists "A" defaultState = false ∧
    (addCharacter "u" "A" 3 2 defaultState =
        .ok { defaultState with characters :=
          defaultState.characters ++ [⟨"u", "A", 3, 2⟩] } ∧
      characterExists "A" { defaultState with characters :=
        defaultState.characters ++ [⟨"u", "A", 3, 2⟩] } = true) :=
  ⟨by decide, (addCharacter_spec defaultState "u" "A" 3 2).2 (by decide)⟩

/-- C6: `removeCharacter` on a nonexistent name fails with the not-found
error and the state is unchanged; in general any mutator call that fails
leaves the tracker state exactly as it was (each mutator validates before
its first write). -/
theorem removeCharacter_notFound (s : TrackerState) (name : String)
    (h : characterExists name s = false) :
    removeCharacter name s = .error "Character does not exist!" ∧
    applyOp (Op.remove name) s = s ∧
    (∀ op t, (∃ e, runOp op t = .error e) → applyOp op t = t) := by
  have herr : removeCharacter name s = .error "Character does not exist!" := by
    unfold removeCharacter
    simp [h]
  refine ⟨herr, ?_, ?_⟩
  · simp only [applyOp, runOp, herr]
  · rintro op t ⟨e, he⟩
    simp only [applyOp, he]

theorem removeCharacter_notFound_witness :
    characterExists "A" defaultState = false ∧
    (removeCharacter "A" defaultState = .error "Character does not exist!" ∧
     applyOp (Op.remove "A") defaultState = defaultState ∧
     (∀ op t, (∃ e, runOp op t = .error e) → applyOp op t = t)) :=
  ⟨by decide, removeCharacter_notFound defaultState "A" (by decide)⟩

/-- C7: `editCharacter` fails with the not-found error exactly when the old
name is absent; when the old name sits (first) at index `i`, the call
overwrites that character's name, initiative and dexterity in place — the
roster keeps its length and every other character, and `turn`/`round` are
untouched.  No check whatsoever is made on `newname` (the success equation
holds for every `newname`, colliding or not). -/
theorem editCharacter_spec (s : TrackerState) (name newname : String)
    (initiative dexterity : Int) :
    (editCharacter name newname initiative dexterity s =
        .error "Character does not exist!" ↔ characterExists name s = false) ∧
    (∀ i c, findIdxName name s.characters = some i → s.characters[i]? = some c →
      editCharacter name newname initiative dexterity s =
        .ok { s with characters :=
          s.characters.set i { c with name := newname, initiative := initiative, dexterity := dexterity } }) := by
  constructor
  · constructor
    · intro h
      cases hex : characterExists name s with
      | false => rfl
      | true => simp [editCharacter, hex] at h
    · intro hex
      simp [editCharacter, hex]
  · intro i c hfind hget
    have hex : characterExists name s = true := characterExists_iff.mpr ⟨i, hfind⟩
    simp [editCharacter, hex, editFirst_eq_set hfind hget]

theorem editCharacter_spec_witness :
    findIdxName "A" [⟨"u", "A", 5, 5⟩, ⟨"u", "B", 1, 1⟩] = some 0 ∧
    editCharacter "A" "B" 2 2 ⟨0, 0, [⟨"u", "A", 5, 5⟩, ⟨"u", "B", 1, 1⟩]⟩ =
      .ok ⟨0, 0, [⟨"u", "B", 2, 2⟩, ⟨"u", "B", 1, 1⟩]⟩ := by
  refine ⟨by decide, ?_⟩
  exact (editCharacter_spec ⟨0, 0, [⟨"u", "A", 5, 5⟩, ⟨"u", "B", 1, 1⟩]⟩
    "A" "B" 2 2).2 0 ⟨"u", "A", 5, 5⟩ (by decide) (by decide)

/-- C2: on a roster with unique names, removing the existing character at
index `i` with current turn `t = s.turn` and pre-removal count
`n = s.characters.length` deletes exactly that character and adjusts the
counters as claimed: `i < t` decrements `turn`; `i = t = n - 1` wraps
(`turn := 0`, `round := round + 1`); `i = t < n - 1` leaves `turn` (and
`round`) alone; `i > t` leaves both alone. -/
theorem removeCharacter_spec (s : TrackerState) (name : String) (i : Nat)
    (hnodup : (s.characters.map Character.name).Nodup)
    (hfind : findIdxName name s.characters = some i) :
    ∃ s', removeCharacter name s = .ok s' ∧
      s'.characters = s.characters.eraseIdx i ∧
      ((i : Int) < s.turn → s'.turn = s.turn - 1 ∧ s'.round = s.round) ∧
      ((i : Int) = s.turn ∧ (i : Int) = (s.characters.length : Int) - 1 →
        s'.turn = 0 ∧ s'.round = s.round + 1) ∧
      ((i : Int) = s.turn ∧ (i : Int) < (s.characters.length : Int) - 1 →
        s'.turn = s.turn ∧ s'.round = s.round) ∧
      (s.turn < (i : Int) → s'.turn = s.turn ∧ s'.round = s.round) := by
  have hex : characterExists name s = true := characterExists_iff.mpr ⟨i, hfind⟩
  have herase := removeAll_eq_eraseIdx hnodup hfind
  have hilen := findIdxName_lt_length hfind
  unfold removeCharacter
  simp only [hex, Bool.not_true, Bool.false_eq_true, if_false, findIndexName, hfind,
    beq_iff_eq]
  split_ifs with hlt heq hlast <;>
    refine ⟨_, rfl, herase, ?_, ?_, ?_, ?_⟩ <;> intro hcase <;> dsimp only <;>
    first
      | exact ⟨rfl, rfl⟩
      | omega

theorem removeCharacter_spec_witness :
    ([⟨"u", "A", 5, 5⟩, ⟨"u", "B", 3, 3⟩,
        (⟨"u", "C", 1, 1⟩ : Character)].map Character.name).Nodup ∧
    findIdxName "A" [⟨"u", "A", 5, 5⟩, ⟨"u", "B", 3, 3⟩, ⟨"u", "C", 1, 1⟩] = some 0 ∧
    ∃ s', removeCharacter "A"
        ⟨0, 1, [⟨"u", "A", 5, 5⟩, ⟨"u", "B", 3, 3⟩, ⟨"u", "C", 1, 1⟩]⟩ = .ok s' ∧
      s'.characters = [⟨"u", "B", 3, 3⟩, ⟨"u", "C", 1, 1⟩] ∧
      s'.turn = 0 ∧ s'.round = 0 := by
  refine ⟨by decide, by decide, ?_⟩
  obtain ⟨s', hok, hchars, hc1, -, -, -⟩ :=
    removeCharacter_spec ⟨0, 1, [⟨"u", "A", 5, 5⟩, ⟨"u", "B", 3, 3⟩, ⟨"u", "C", 1, 1⟩]⟩
      "A" 0 (by decide) (by decide)
  obtain ⟨ht, hr⟩ := hc1 (by decide)
  exact ⟨s', hok, by simpa using hchars, by simpa using ht, by simpa using hr⟩

/-- C4: as stated the claim is false — `editCharacter` can rename a
character onto another character's name, and a later `removeCharacter`
then deletes both homonyms while shifting `turn` only once, leaving
`turn = characterCount`.  The concrete call sequence below, starting from
the default state, produces a non-empty roster whose length does not
exceed `turn`. -/
theorem turn_out_of_range_counterexample :
    0 < (applySeq [Op.add "u" "A" 1 1, Op.add "u" "X" 1 1, Op.add "u" "B" 1 1,
      Op.next, Op.next, Op.edit "B" "A" 1 1, Op.remove "A"]
        defaultState).characters.length ∧
    ((applySeq [Op.add "u" "A" 1 1, Op.add "u" "X" 1 1, Op.add "u" "B" 1 1,
      Op.next, Op.next, Op.edit "B" "A" 1 1, Op.remove "A"]
        defaultState).characters.length : Int) ≤
      (applySeq [Op.add "u" "A" 1 1, Op.add "u" "X" 1 1, Op.add "u" "B" 1 1,
        Op.next, Op.next, Op.edit "B" "A" 1 1, Op.remove "A"]
          defaultState).turn := by
  refine ⟨?_, ?_⟩ <;> decide

/-- C4 (amended): restricted to call sequences whose `editCharacter` calls
never rename a character onto a different existing character's name (so
name uniqueness is preserved), every reachable state with a non-empty
roster satisfies `0 ≤ turn < characterCount`. -/
theorem turn_in_range_of_reachable {s : TrackerState} (h : ReachableNoClash s)
    (hne : 0 < s.characters.length) :
    0 ≤ s.turn ∧ s.turn < (s.characters.length : Int) := by
  obtain ⟨-, h2, -, h4⟩ := inv_reachable h
  exact ⟨h2, h4 hne⟩

theorem turn_in_range_of_reachable_witness :
    0 ≤ (applyOp (Op.add "u" "A" 1 1) defaultState).turn ∧
    (applyOp (Op.add "u" "A" 1 1) defaultState).turn <
      ((applyOp (Op.add "u" "A" 1 1) defaultState).characters.length : Int) :=
  turn_in_range_of_reachable
    (ReachableNoClash.step (Op.add "u" "A" 1 1) ReachableNoClash.init trivial)
    (by decide)
